import Mathlib

/-!
Shallow embedding of the event-processing core of `src/scripts/adaptyst-process.py`
(Adaptyst), together with proofs about the embedded definitions.

The embedding covers:
* the compact code generator `next_code` (mixed-radix counter over the
  printable ASCII range 32..126);
* the symbol dictionary (`defaultdict(lambda: next_code(cur_code_sym))`);
* the per-owner symbol-map cache `find_in_map` (incremental parse of
  `perf-<id>.map` files, sorted batches, bisect-based cached search);
* the callchain filter inside `process_event` (allow/deny/python modes,
  `(cut)` marker collapse, final reversal);
* frame resolution `process_callchain_elem`;
* the stream router `event_stream_dict` / `get_next_event_stream` and
  the per-sample record emission of `process_event`.

External collaborators (the regex engine, the `cxxfilt` demangler, the
readiness probe on the map file, the user-supplied classifier module) are
modelled as explicit parameters: a regex becomes an abstract `String → Bool`
matcher, the demangler an abstract `String → String`, the readable portion
of a map file an explicit list of (already lexed) lines, and the classifier
an abstract producer of Python values.
-/

namespace Adaptyst

/-! ## Code generator (`next_code`, `cur_code_sym`)

`cur_code` is the list of "digit" values (ASCII codes, least-significant
first), initially `[32]`.  `next_code` returns the string spelled by the
current digits and then increments the digits as a mixed-radix counter over
32..126, appending a fresh digit on overflow of the last one. -/

/-- One increment step of the digit list: `cur_code[i] += 1`; on overflow
past 126 reset to 32 and carry, appending a new digit 32 when the carry
leaves the last existing digit. -/
def incCode : List Nat → List Nat
  | [] => []
  | [d] => if d + 1 ≤ 126 then [d + 1] else [32, 32]
  | d :: e :: rest => if d + 1 ≤ 126 then (d + 1) :: e :: rest else 32 :: incCode (e :: rest)

/-- The string spelled by the current digit list: one character per digit,
digit 0 first (`''.join(map(chr, cur_code))`). -/
def codeStr (cur : List Nat) : String := String.mk (cur.map Char.ofNat)

/-- The embedding of `next_code`: return the current string, and the
incremented digit state. -/
def next_code (cur : List Nat) : String × List Nat := (codeStr cur, incCode cur)

/-- Digit state before the `n`-th call (0-indexed), starting from
`cur_code_sym = [32]`. -/
def stateAt : Nat → List Nat
  | 0 => [32]
  | n + 1 => incCode (stateAt n)

/-- The string returned by the `n`-th call (0-indexed) of `next_code`. -/
def genOutput (n : Nat) : String := codeStr (stateAt n)

/-- Value of a digit list read as a little-endian base-95 numeral with
digit offset 32. -/
def codeVal : List Nat → Nat
  | [] => 0
  | d :: rest => (d - 32) + 95 * codeVal rest

/-- Number of digit lists of length strictly less than `n`
(`lenOffset n = 95^(n-1) + ... + 95 + 1` for `n ≥ 1`). -/
def lenOffset : Nat → Nat
  | 0 => 0
  | n + 1 => 1 + 95 * lenOffset n

/-- Rank of a digit list in the length-then-value enumeration. -/
def codeRank (l : List Nat) : Nat := codeVal l + lenOffset l.length

/-- Well-formed digit lists: nonempty, all digits in the printable range. -/
def ValidCode (l : List Nat) : Prop := l ≠ [] ∧ ∀ d ∈ l, 32 ≤ d ∧ d ≤ 126

theorem validCode_incCode : ∀ l, ValidCode l → ValidCode (incCode l)
  | [], h => absurd rfl h.1
  | [d], h => by
    have hd := h.2 d (by simp)
    by_cases hle : d + 1 ≤ 126
    · simp only [incCode, hle, if_true, ValidCode]
      exact ⟨by simp, by intro x hx; simp at hx; omega⟩
    · simp only [incCode, hle, if_false, ValidCode]
      exact ⟨by simp, by intro x hx; simp at hx; omega⟩
  | d :: e :: rest, h => by
    by_cases hle : d + 1 ≤ 126
    · have hd := h.2 d (by simp)
      simp only [incCode, hle, if_true, ValidCode]
      refine ⟨by simp, ?_⟩
      intro x hx
      rcases List.mem_cons.mp hx with hx | hx
      · omega
      · exact h.2 x (List.mem_cons_of_mem d hx)
    · have ih := validCode_incCode (e :: rest)
        ⟨by simp, fun x hx => h.2 x (List.mem_cons_of_mem d hx)⟩
      simp only [incCode, hle, if_false, ValidCode]
      refine ⟨by simp, ?_⟩
      intro x hx
      rcases List.mem_cons.mp hx with hx | hx
      · omega
      · exact ih.2 x hx

theorem codeRank_incCode : ∀ l, ValidCode l → codeRank (incCode l) = codeRank l + 1
  | [], h => absurd rfl h.1
  | [d], h => by
    have hd := h.2 d (by simp)
    by_cases hle : d + 1 ≤ 126 <;>
      simp only [incCode, hle, if_true, if_false, codeRank, codeVal,
        List.length_cons, List.length_nil, lenOffset] <;>
      omega
  | d :: e :: rest, h => by
    have hd := h.2 d (by simp)
    by_cases hle : d + 1 ≤ 126
    · simp only [incCode, hle, if_true, codeRank, codeVal, List.length_cons, lenOffset]
      omega
    · have ih := codeRank_incCode (e :: rest)
        ⟨by simp, fun x hx => h.2 x (List.mem_cons_of_mem d hx)⟩
      simp only [incCode, hle, if_false, codeRank, codeVal, List.length_cons, lenOffset] at ih ⊢
      omega

theorem validCode_stateAt : ∀ n, ValidCode (stateAt n)
  | 0 => ⟨by simp [stateAt], by intro d hd; simp [stateAt] at hd; omega⟩
  | n + 1 => validCode_incCode _ (validCode_stateAt n)

theorem codeRank_stateAt : ∀ n, codeRank (stateAt n) = n + 1
  | 0 => by simp [stateAt, codeRank, codeVal, lenOffset]
  | n + 1 => by
    rw [stateAt, codeRank_incCode _ (validCode_stateAt n), codeRank_stateAt n]

theorem stateAt_injective {m n : Nat} (h : stateAt m = stateAt n) : m = n := by
  have := codeRank_stateAt m
  rw [h, codeRank_stateAt n] at this
  omega

theorem charOfNat_toNat {a : Nat} (h : a ≤ 126) : (Char.ofNat a).toNat = a := by
  have hv : Nat.isValidChar a := Or.inl (by omega)
  unfold Char.ofNat
  rw [dif_pos hv]
  rfl

theorem codeStr_injOn : ∀ {l l' : List Nat}, ValidCode l → ValidCode l' →
    codeStr l = codeStr l' → l = l' := by
  have aux : ∀ (l l' : List Nat), (∀ d ∈ l, d ≤ 126) → (∀ d ∈ l', d ≤ 126) →
      l.map Char.ofNat = l'.map Char.ofNat → l = l' := by
    intro l
    induction l with
    | nil => intro l' _ _ hm; cases l' <;> simp_all
    | cons d rest ih =>
      intro l' hb hb' hm
      cases l' with
      | nil => simp_all
      | cons d' rest' =>
        simp only [List.map_cons, List.cons.injEq] at hm
        have hd : d = d' := by
          have h1 := charOfNat_toNat (hb d (by simp))
          have h2 := charOfNat_toNat (hb' d' (by simp))
          rw [← h1, ← h2, hm.1]
        have hr := ih rest' (fun x hx => hb x (by simp [hx]))
          (fun x hx => hb' x (by simp [hx])) hm.2
        rw [hd, hr]
  intro l l' h h' he
  have : l.map Char.ofNat = l'.map Char.ofNat := congrArg String.data he
  exact aux l l' (fun d hd => (h.2 d hd).2) (fun d hd => (h'.2 d hd).2) this

theorem genOutput_injective {m n : Nat} (h : m ≠ n) : genOutput m ≠ genOutput n := by
  intro he
  exact h (stateAt_injective
    (codeStr_injOn (validCode_stateAt m) (validCode_stateAt n) he))

theorem length_incCode : ∀ l : List Nat, l.length ≤ (incCode l).length
  | [] => by simp [incCode]
  | [d] => by by_cases hle : d + 1 ≤ 126 <;> simp [incCode, hle]
  | d :: e :: rest => by
    by_cases hle : d + 1 ≤ 126
    · simp [incCode, hle]
    · have := length_incCode (e :: rest)
      simp only [incCode, hle, if_false, List.length_cons] at this ⊢
      omega

theorem genOutput_length_mono {m n : Nat} (h : m ≤ n) :
    (genOutput m).length ≤ (genOutput n).length := by
  have aux : ∀ k, (genOutput m).length ≤ (genOutput (m + k)).length := by
    intro k
    induction k with
    | zero => simp
    | succ j ih =>
      refine le_trans ih ?_
      show (codeStr (stateAt (m + j))).length ≤ (codeStr (incCode (stateAt (m + j)))).length
      simpa [codeStr] using length_incCode (stateAt (m + j))
  have := aux (n - m)
  rwa [Nat.add_sub_cancel' h] at this

theorem stateAt_of_le_94 : ∀ n, n ≤ 94 → stateAt n = [32 + n]
  | 0, _ => by simp [stateAt]
  | n + 1, h => by
    rw [stateAt, stateAt_of_le_94 n (by omega)]
    simp only [incCode]
    rw [if_pos (by omega)]
    simp
    omega

theorem genOutput_lt_of_le_94 {m n : Nat} (hmn : m < n) (hn : n ≤ 94) :
    genOutput m < genOutput n := by
  rw [genOutput, genOutput, stateAt_of_le_94 m (by omega), stateAt_of_le_94 n hn]
  show String.mk [Char.ofNat (32 + m)] < String.mk [Char.ofNat (32 + n)]
  rw [String.lt_iff_toList_lt]
  apply List.Lex.rel
  rw [Char.lt_def]
  show (Char.ofNat (32 + m)).toNat < (Char.ofNat (32 + n)).toNat
  rw [charOfNat_toNat (by omega), charOfNat_toNat (by omega)]
  omega

/-! ## Symbol dictionary (`symbol_dict`)

`symbol_dict = defaultdict(lambda: next_code(cur_code_sym))`: an
insertion-ordered mapping from a `(display-name, module-path)` pair to a
compact code; a missed lookup assigns the next generator output.  The
reverse mapping `{v: k for k, v in symbol_dict.items()}` is built in
`trace_end`. -/

/-- A symbol-dictionary state: the insertion-ordered entries
(pair, code) together with the generator digit state `cur_code_sym`. -/
structure SymDict where
  entries : List ((String × String) × String)
  gen : List Nat
deriving Repr, DecidableEq

/-- The initial dictionary: empty, generator at `[32]`. -/
def initDict : SymDict := ⟨[], [32]⟩

/-- Forward lookup of a pair among the stored entries. -/
def lookupPair (entries : List ((String × String) × String)) (p : String × String) :
    Option String :=
  (entries.find? (fun e => e.1 = p)).map (fun e => e.2)

/-- The embedding of a `symbol_dict[p]` access: on a hit return the stored
code, on a miss call `next_code` and append the fresh association. -/
def code_for (d : SymDict) (p : String × String) : String × SymDict :=
  match lookupPair d.entries p with
  | some c => (c, d)
  | none =>
    let r := next_code d.gen
    (r.1, ⟨d.entries ++ [(p, r.1)], r.2⟩)

/-- Reverse lookup in `{v: k for k, v in symbol_dict.items()}`: the Python
dict comprehension lets the LAST occurrence of a code win, hence the
`reverse` before `find?`. -/
def revLookup (entries : List ((String × String) × String)) (c : String) :
    Option (String × String) :=
  (entries.reverse.find? (fun e => e.2 = c)).map (fun e => e.1)

/-- Invariant of every reachable dictionary state: the generator is at some
step `k`, the stored codes are exactly the first `k` generator outputs in
order, and the stored pairs are distinct. -/
def DictInv (d : SymDict) : Prop :=
  ∃ k, d.gen = stateAt k ∧ d.entries.map (fun e => e.2) = (List.range k).map genOutput ∧
    (d.entries.map (fun e => e.1)).Nodup

theorem dictInv_init : DictInv initDict :=
  ⟨0, rfl, by simp [initDict], by simp [initDict]⟩

theorem lookupPair_none_iff {entries : List ((String × String) × String)}
    {p : String × String} :
    lookupPair entries p = none ↔ ∀ e ∈ entries, e.1 ≠ p := by
  simp [lookupPair, List.find?_eq_none]

theorem dictInv_code_for {d : SymDict} {p : String × String} (h : DictInv d) :
    DictInv (code_for d p).2 := by
  obtain ⟨k, hg, hc, hn⟩ := h
  unfold code_for
  cases hl : lookupPair d.entries p with
  | some c => exact ⟨k, hg, hc, hn⟩
  | none =>
    refine ⟨k + 1, ?_, ?_, ?_⟩
    · simp [next_code, hg, stateAt]
    · simp only [next_code, List.map_append, hc, List.map_cons, List.map_nil]
      rw [List.range_succ, List.map_append]
      simp [genOutput, hg]
    · simp only [List.map_append, List.map_cons, List.map_nil]
      rw [List.nodup_append]
      refine ⟨hn, by simp, ?_⟩
      intro x hx
      simp only [List.mem_map] at hx
      obtain ⟨e, he, hex⟩ := hx
      simp only [List.mem_cons, List.not_mem_nil, or_false]
      intro hxp
      exact (lookupPair_none_iff.mp hl e he) (by rw [hex, hxp])

/-! ## Stream router (`event_streams`, `next_index`, `event_stream_dict`)

`event_stream_dict = defaultdict(lambda: defaultdict(get_next_event_stream))`
is keyed first by pid and then by tid; `get_next_event_stream` returns
`event_streams[next_index]` and advances `next_index` round-robin.  Streams
are modelled by their index into `event_streams`. -/

/-- A router state: the number of output connections (`len(event_streams)`),
the shared round-robin pointer `next_index`, and the nested memoization
table `event_stream_dict` (pid ↦ tid ↦ assigned stream index). -/
structure RouterState where
  nStreams : Nat
  next_index : Nat
  table : List (Nat × List (Nat × Nat))
deriving Repr, DecidableEq

/-- The embedding of `get_next_event_stream`: the chosen stream index and
the advanced pointer. -/
def get_next_event_stream (nStreams next_index : Nat) : Nat × Nat :=
  (next_index, (next_index + 1) % nStreams)

/-- Append a fresh tid assignment inside the inner dict of `pid`. -/
def addTid (table : List (Nat × List (Nat × Nat))) (pid tid idx : Nat) :
    List (Nat × List (Nat × Nat)) :=
  table.map (fun e => if e.1 = pid then (e.1, e.2 ++ [(tid, idx)]) else e)

/-- The embedding of an `event_stream_dict[pid][tid]` access: a missing pid
creates its inner dict; a missing tid within it triggers
`get_next_event_stream` (advancing the shared pointer); a present tid
returns its memoized stream. -/
def event_stream_lookup (s : RouterState) (pid tid : Nat) : Nat × RouterState :=
  match s.table.find? (fun e => e.1 = pid) with
  | none =>
    let r := get_next_event_stream s.nStreams s.next_index
    (r.1, { s with next_index := r.2, table := s.table ++ [(pid, [(tid, r.1)])] })
  | some pe =>
    match pe.2.find? (fun e => e.1 = tid) with
    | some te => (te.2, s)
    | none =>
      let r := get_next_event_stream s.nStreams s.next_index
      (r.1, { s with next_index := r.2, table := addTid s.table pid tid r.1 })

/-- Whether the pair (pid, tid) already has a memoized stream. -/
def seenPair (s : RouterState) (pid tid : Nat) : Bool :=
  match s.table.find? (fun e => e.1 = pid) with
  | none => false
  | some pe => (pe.2.find? (fun e => e.1 = tid)).isSome

/-! ## Callchain filter (the `filter_settings` branch of `process_event`)

A resolved frame entering the filter is a pair
`(sym_result, off_result) : (String × String) × String` with
`sym_result = (display-name, module-path)`.  A condition string
`"SYM <regex>" / "EXEC <regex>" / "ANY <regex>"` is modelled as a kind tag
plus an abstract matcher `String → Bool` standing for
`re.search(regex, ·) is not None`. -/

/-- The three condition kinds parsed from `^(SYM|EXEC|ANY) (.+)$`. -/
inductive CondKind
  | SYM
  | EXEC
  | ANY
deriving Repr, DecidableEq

/-- One condition of a rule-group: the kind tag and the regex matcher. -/
structure FilterCond where
  kind : CondKind
  rmatch : String → Bool

/-- The embedding of `satisfy_conditions`: OR over rule-groups, AND over
the conditions of a group; `SYM` tests the display name, `EXEC` the module
path, `ANY` either. -/
def satisfy_conditions (sym_result : String × String)
    (conditions : List (List FilterCond)) : Bool :=
  conditions.any (fun group => group.all (fun c =>
    match c.kind with
    | .SYM => c.rmatch sym_result.1
    | .EXEC => c.rmatch sym_result.2
    | .ANY => c.rmatch sym_result.1 || c.rmatch sym_result.2))

/-- The sentinel frame appended for a run of rejected frames:
`(symbol_dict[('(cut)', '')], '')` before dictionary encoding. -/
def cutFrame : (String × String) × String := (("(cut)", ""), "")

/-- The filter loop of `process_event` for the allow/deny strategies,
specialized to a per-frame keep decision `keepf` (which already folds in
the allow/deny polarity).  `lastCut` is the `last_cut` flag.  The result is
the pre-reversal `callchain` list, still carrying uncompressed symbols. -/
def markFold (mark : Bool) (keepf : String × String → Bool) :
    Bool → List ((String × String) × String) → List ((String × String) × String)
  | _, [] => []
  | lastCut, (s, o) :: rest =>
    if keepf s then (s, o) :: markFold mark keepf false rest
    else if mark && !lastCut then cutFrame :: markFold mark keepf true rest
    else markFold mark keepf lastCut rest

/-- Specification-level description of the same loop, following the spec's
words: kept frames pass through unchanged, and each maximal run of
consecutive rejected frames becomes a single cut marker when `mark` is set
and vanishes otherwise. -/
def specFilter (mark : Bool) (keepf : String × String → Bool) :
    List ((String × String) × String) → List ((String × String) × String)
  | [] => []
  | f :: rest =>
    if keepf f.1 then f :: specFilter mark keepf rest
    else (if mark then [cutFrame] else []) ++
      specFilter mark keepf (rest.dropWhile (fun g => !keepf g.1))
termination_by l => l.length
decreasing_by
  · simp
  · simp only [List.length_cons]
    exact Nat.lt_succ_of_le (List.dropWhile_suffix _).length_le

/-- An element of the list returned by the user-supplied classifier
(`process(chain)`), as seen through `isinstance(·, bool)`. -/
inductive PyElem
  | bool (b : Bool)
  | notBool
deriving Repr, DecidableEq

/-- The value returned by the classifier, as seen through
`isinstance(·, list)`; `None` is covered by `notList`. -/
inductive PyVal
  | list (elems : List PyElem)
  | notList
deriving Repr, DecidableEq

/-- The shape check performed right after calling `process(chain)`:
`accepted is None or not isinstance(accepted, list) or
len(accepted) != len(callchain_tmp)` raises a `RuntimeError`. -/
def checkAccepted (n : Nat) : PyVal → Except String (List PyElem)
  | .notList => .error "Invalid value of process() from the provided Python script: it is not a list"
  | .list l =>
    if l.length = n then .ok l
    else .error "Invalid value of process() from the provided Python script: it is not a list of the callchain size"

/-- The filter loop of `process_event` for the python strategy: the i-th
classifier element is type-checked (`isinstance(accepted[i], bool)` raises
on failure) and decides acceptance of the i-th frame; rejected runs
collapse to a cut marker exactly as in the allow/deny loop. -/
def pyFold (mark : Bool) :
    Bool → List PyElem → List ((String × String) × String) →
    Except String (List ((String × String) × String))
  | _, _, [] => .ok []
  | _, [], _ :: _ => .ok []
  | lastCut, a :: arest, (s, o) :: rest =>
    match a with
    | .notBool => .error "Invalid value of process() from the provided Python script: a non-boolean element"
    | .bool b =>
      if b then
        match pyFold mark false arest rest with
        | .ok xs => .ok ((s, o) :: xs)
        | .error e => .error e
      else if mark && !lastCut then
        match pyFold mark true arest rest with
        | .ok xs => .ok (cutFrame :: xs)
        | .error e => .error e
      else pyFold mark lastCut arest rest

/-- Specification-level fold for the python strategy on an error-free
classifier answer: the i-th boolean decides acceptance of the i-th frame. -/
def boolFold (mark : Bool) :
    Bool → List Bool → List ((String × String) × String) →
    List ((String × String) × String)
  | _, _, [] => []
  | _, [], _ :: _ => []
  | lastCut, b :: bs, (s, o) :: rest =>
    if b then (s, o) :: boolFold mark false bs rest
    else if mark && !lastCut then cutFrame :: boolFold mark true bs rest
    else boolFold mark lastCut bs rest

/-- The filter configuration (`filter_settings`), as received over the
control channel: `allow` / `deny` carry the rule-groups, `python` the
user-supplied classifier (modelled externally); all carry `mark`. -/
inductive FilterConfig
  | allowF (conditions : List (List FilterCond)) (mark : Bool)
  | denyF (conditions : List (List FilterCond)) (mark : Bool)
  | pythonF (mark : Bool)

/-- The whole filter stage of `process_event` on the resolved chain
`callchain_tmp` (innermost frame first), producing the PRE-reversAL list of
surviving entries; `pyv` is the classifier's answer (used only by the
python strategy). -/
def filterStage (cfg : FilterConfig) (pyv : PyVal)
    (chain : List ((String × String) × String)) :
    Except String (List ((String × String) × String)) :=
  match cfg with
  | .allowF conds mark =>
    .ok (markFold mark (fun s => satisfy_conditions s conds) false chain)
  | .denyF conds mark =>
    .ok (markFold mark (fun s => !satisfy_conditions s conds) false chain)
  | .pythonF mark =>
    match checkAccepted chain.length pyv with
    | .ok l => pyFold mark false l chain
    | .error e => .error e

/-- Counter-instrumented run of the python filter path: the classifier is
modelled as a stream of answers indexed by how many times it has been
invoked, so that "invoked exactly once per callchain" is visible in the
returned counter. -/
def pythonFilter (classify : Nat → PyVal) (count : Nat) (mark : Bool)
    (chain : List ((String × String) × String)) :
    Except String (List ((String × String) × String)) × Nat :=
  (filterStage (.pythonF mark) (classify count) chain, count + 1)

/-! ## Symbol-map cache (`perf_maps`, `find_in_map`)

`perf_maps[map_id]` is `(map_path, file, [line_counter], groups)`; an
absent file is recorded as `(map_path, None, None, None)`.  The readable
portion of the file is modelled as an explicit list of already-lexed lines:
the `select`-readiness probe returning not-ready corresponds to that list
being exhausted, and `demangle` has already been applied to well-formed
names (the regex `(.+)` plus `cxxfilt.demangle` are external).  The file
cursor advancing across calls is part of the external world and therefore
an input (`readable`) rather than cached state; the line counter `i[0]`
is kept for the diagnostics it feeds. -/

/-- One parsed symbol-map entry `(start, length, demangled-name)`. -/
structure MapEntry where
  start : Nat
  len : Nat
  name : String
deriving Repr, DecidableEq

/-- One line of the map file as seen by the reader: either it matched
`^([0-9a-fA-F]+)\s+([0-9a-fA-F]+)\s+(.+)$` (already converted and
demangled) or it was malformed and is skipped with a diagnostic. -/
inductive MapLine
  | ok (e : MapEntry)
  | bad
deriving Repr, DecidableEq

/-- Cached state for one owner id: the map path, whether the file existed
at first sight (`f is not None`), the line counter and the sorted batches. -/
structure MapCacheEntry where
  path : String
  present : Bool
  lineNo : Nat
  groups : List (List MapEntry)
deriving Repr, DecidableEq

/-- The whole `perf_maps` dictionary, keyed by the owner id string. -/
abbrev PerfMaps := List (String × MapCacheEntry)

/-- The embedding of `bisect_left(group, ip, key=start)` on a sorted batch:
the number of leading entries with start address below `ip`. -/
def bisectStart (group : List MapEntry) (ip : Nat) : Nat :=
  (group.takeWhile (fun e => e.start < ip)).length

/-- The cached-batch search loop: batches are visited oldest first; in a
batch, the entry at the bisect position is returned when its range holds
`ip`. -/
def searchGroups (ip : Nat) : List (List MapEntry) → Option String
  | [] => none
  | g :: rest =>
    match g[bisectStart g ip]? with
    | some e =>
      if e.start ≤ ip && e.start + e.len > ip then some e.name else searchGroups ip rest
    | none => searchGroups ip rest

/-- Stable insertion by start address (the model of Python's stable
`list.sort(key=lambda x: x[0])`). -/
def insertByStart (e : MapEntry) : List MapEntry → List MapEntry
  | [] => [e]
  | x :: xs => if x.start < e.start then x :: insertByStart e xs else e :: x :: xs

/-- Sort the buffered entries by start address. -/
def sortEntries (l : List MapEntry) : List MapEntry := l.foldr insertByStart []

/-- The incremental read loop: consume readable lines one at a time,
skipping malformed ones (counting every consumed line), buffering parsed
entries, and stopping with the name as soon as a freshly parsed entry's
range holds `ip`.  Returns (result, buffered entries, new line counter). -/
def readLoop (ip : Nat) : Nat → List MapEntry → List MapLine →
    Option String × List MapEntry × Nat
  | lineNo, toAdd, [] => (none, toAdd, lineNo)
  | lineNo, toAdd, .bad :: rest => readLoop ip (lineNo + 1) toAdd rest
  | lineNo, toAdd, .ok e :: rest =>
    if e.start ≤ ip && e.start + e.len > ip then (some e.name, toAdd ++ [e], lineNo + 1)
    else readLoop ip (lineNo + 1) (toAdd ++ [e]) rest

/-- Body of `find_in_map` once an open file is at hand: search the cached
batches first; otherwise run the read loop and append the sorted buffer as
one new batch (the `len(to_add) > 0` guard is kept from the source). -/
def runMapQuery (c : MapCacheEntry) (ip : Nat) (readable : List MapLine) :
    Option String × MapCacheEntry :=
  match searchGroups ip c.groups with
  | some name => (some name, c)
  | none =>
    let r := readLoop ip c.lineNo [] readable
    let groups' := if r.2.1.length > 0 then c.groups ++ [sortEntries r.2.1] else c.groups
    (r.1, { c with lineNo := r.2.2, groups := groups' })

/-- The embedding of `find_in_map(map_path, map_id, ip)`.  `fileExists`
models `map_path.exists()` at the moment of the first query for this owner
id, and `readable` the currently readable unread lines of the open file. -/
def find_in_map (pm : PerfMaps) (map_path map_id : String) (ip : Nat)
    (fileExists : Bool) (readable : List MapLine) : Option String × PerfMaps :=
  match (pm : List (String × MapCacheEntry)).find? (fun e => e.1 = map_id) with
  | none =>
    if fileExists then
      let r := runMapQuery ⟨map_path, true, 0, []⟩ ip readable
      (r.1, pm ++ [(map_id, r.2)])
    else
      (none, pm ++ [(map_id, ⟨map_path, false, 0, []⟩)])
  | some me =>
    if me.2.present then
      let r := runMapQuery me.2 ip readable
      (r.1, (pm : List (String × MapCacheEntry)).map
        (fun e => if e.1 = map_id then (e.1, r.2) else e))
    else
      (none, pm)

/-- The `missing_maps` list built in `trace_end`: the paths of every owner
whose file handle is `None`, in `perf_maps` order. -/
def missing_symbol_maps (pm : PerfMaps) : List String :=
  ((pm : List (String × MapCacheEntry)).filter (fun e => !e.2.present)).map
    (fun e => e.2.path)

/-! ## Frame resolver (`process_callchain_elem`)

A raw frame carries `ip` plus the optional fields `sym.name`, `dso` and
`dso_off` of the perf callchain element (`'sym' in elem and 'name' in
elem['sym']` collapses to one `Option`).  `demangle` is the external
`cxxfilt.demangle(·, False)` and `mapLookup` abstracts the result of the
`find_in_map` query performed for dynamic-code frames. -/

/-- Hexadecimal digit character (lowercase, as Python's `hex`). -/
def hexDigitChar (n : Nat) : Char :=
  if n < 10 then Char.ofNat (48 + n) else Char.ofNat (87 + n)

/-- Hexadecimal digit characters of `n`, most significant first, empty for
zero. -/
def hexDigits : Nat → List Char
  | 0 => []
  | n + 1 => hexDigits ((n + 1) / 16) ++ [hexDigitChar ((n + 1) % 16)]
decreasing_by exact Nat.div_lt_self (Nat.succ_pos n) (by omega)

/-- Python's `hex(n)` / `f'{n:#x}'` for unsigned values. -/
def toHex (n : Nat) : String :=
  "0x" ++ (if n = 0 then "0" else String.mk (hexDigits n))

/-- Characters after the last slash (helper for `baseName`). -/
def lastComponentAux (acc : List Char) : List Char → List Char
  | [] => acc
  | c :: rest => if c = '/' then lastComponentAux [] rest else lastComponentAux (acc ++ [c]) rest

/-- The final path component, as `pathlib.Path(s).name`. -/
def baseName (s : String) : String := String.mk (lastComponentAux [] s.data)

/-- Split off the leading run of decimal digits (helper for the `\d+`
group of the map-name regex). -/
def takeDigits : List Char → List Char × List Char
  | [] => ([], [])
  | c :: rest =>
    if c.isDigit then
      let r := takeDigits rest
      (c :: r.1, r.2)
    else ([], c :: rest)

/-- The match of `^perf\-(\d+)\.map$` on a file name, returning the
captured owner id digits (the digit run is maximal, so the greedy regex
semantics coincide). -/
def isPerfMapName (s : String) : Option String :=
  match s.data with
  | 'p' :: 'e' :: 'r' :: 'f' :: '-' :: rest =>
    let r := takeDigits rest
    if r.1.length > 0 && r.2 == ['.', 'm', 'a', 'p'] then some (String.mk r.1) else none
  | _ => none

/-- A raw callchain element as delivered by the host engine. -/
structure RawElem where
  ip : Nat
  sym : Option String
  dso : Option String
  dso_off : Nat

/-- The result of resolving one element: `sym_result = (display-name,
module-path)`, `off_result`, and the `(dso, hex(dso_off))` pair added to
`dso_dict` (when the branch performs that side effect). -/
structure ResolvedElem where
  sym : String × String
  off : String
  dsoAdd : Option (String × String)
deriving Repr, DecidableEq

/-- The embedding of `process_callchain_elem`.  Notable control flow taken
from the source: in the non-map-dso branch `sym_result_set` is never set,
so the trailing `if not sym_result_set and 'sym' in elem ...` overwrites
the bracketed module path with the raw (undemangled) symbol name. -/
def process_callchain_elem (demangle : String → String)
    (mapLookup : String → String → Nat → Option String) (elem : RawElem) :
    ResolvedElem :=
  match elem.dso with
  | some dso =>
    match isPerfMapName (baseName dso) with
    | some mapId =>
      match elem.sym with
      | some symName => ⟨(demangle symName, dso), toHex elem.ip, none⟩
      | none =>
        match mapLookup dso mapId elem.ip with
        | some r => ⟨(r, dso), toHex elem.ip, none⟩
        | none => ⟨("[" ++ toHex elem.ip ++ "]", dso), toHex elem.ip, none⟩
    | none =>
      match elem.sym with
      | some symName =>
        ⟨(symName, dso), toHex elem.dso_off, some (dso, toHex elem.dso_off)⟩
      | none =>
        ⟨("[" ++ dso ++ "]", dso), toHex elem.dso_off, some (dso, toHex elem.dso_off)⟩
  | none =>
    match elem.sym with
    | some symName => ⟨(symName, ""), toHex elem.ip, none⟩
    | none => ⟨("[" ++ toHex elem.ip ++ "]", ""), toHex elem.ip, none⟩

/-! ## Pipeline driver (`process_event` routing and emission)

One sample event and the mutable state it touches.  The resolved chain
(`callchain_tmp`) is an input here; frame resolution is modelled by
`process_callchain_elem` above.  Output connections are modelled by the
list of records written to each. -/

/-- The fields of one sample event used by `process_event`
(`parsed_event_type`, pid, tid, time, period, resolved callchain
innermost-first). -/
structure SampleEvent where
  event_type : String
  pid : Nat
  tid : Nat
  time : Nat
  period : Nat
  chain : List ((String × String) × String)

/-- One emitted record (the JSON object written by `write`). -/
structure OutputRecord where
  event_type : String
  pid : Nat
  tid : Nat
  time : Nat
  period : Nat
  callchain : List (String × String)
deriving Repr, DecidableEq

/-- The mutable state touched by the routing/emission part of
`process_event`. -/
structure PipelineState where
  router : RouterState
  symdict : SymDict
  outputs : List (List OutputRecord)
deriving Repr, DecidableEq

/-- Dictionary-encode a list of filter-stage entries in order, threading
the `symbol_dict` state. -/
def encodeChain (d : SymDict) :
    List ((String × String) × String) → List (String × String) × SymDict
  | [] => ([], d)
  | (s, o) :: rest =>
    let r := code_for d s
    let r2 := encodeChain r.2 rest
    ((r.1, o) :: r2.1, r2.2)

/-- The callchain construction of `process_event`: with no filter, encode
the reversed resolved chain (`[(symbol_dict[s], o) for s, o in
reversed(callchain_tmp)]`); with a filter, run the filter stage, encode in
pre-reversal order exactly as the source loop does, then reverse
(`callchain = callchain[::-1]`). -/
def encodeStage (cfg : Option FilterConfig) (pyv : PyVal) (d : SymDict)
    (chain : List ((String × String) × String)) :
    Except String (List (String × String) × SymDict) :=
  match cfg with
  | none => .ok (encodeChain d chain.reverse)
  | some c =>
    match filterStage c pyv chain with
    | .ok pre =>
      let r := encodeChain d pre
      .ok (r.1.reverse, r.2)
    | .error e => .error e

/-- The embedding of the tail of `process_event`: build the final
`callchain`, then write exactly one record to the connection chosen by
`event_stream_dict[pid][tid]`. -/
def process_event (cfg : Option FilterConfig) (pyv : PyVal)
    (st : PipelineState) (ev : SampleEvent) : Except String PipelineState :=
  match encodeStage cfg pyv st.symdict ev.chain with
  | .error e => .error e
  | .ok cc =>
    let r := event_stream_lookup st.router ev.pid ev.tid
    let outRec : OutputRecord := ⟨ev.event_type, ev.pid, ev.tid, ev.time, ev.period, cc.1⟩
    .ok ⟨r.2, cc.2, st.outputs.set r.1 ((st.outputs.getD r.1 []) ++ [outRec])⟩

/-- Total number of records written across all output connections. -/
def totalRecords (st : PipelineState) : Nat := (st.outputs.map List.length).sum

/-- Router well-formedness: as many output slots as connections, pointer
in range, every memoized index in range. -/
def RouterWF (st : PipelineState) : Prop :=
  st.router.nStreams = st.outputs.length ∧
  st.router.next_index < st.router.nStreams ∧
  ∀ pe ∈ st.router.table, ∀ te ∈ pe.2, te.2 < st.router.nStreams

/-! ## Auxiliary definitions used only by the claim statements -/

/-- The filter stage output as `process_event` uses it: the fold result
reversed (`callchain = callchain[::-1]`), before dictionary encoding. -/
def filteredChain (cfg : FilterConfig) (pyv : PyVal)
    (chain : List ((String × String) × String)) :
    Except String (List ((String × String) × String)) :=
  match filterStage cfg pyv chain with
  | .ok pre => .ok pre.reverse
  | .error e => .error e

/-- Occurrence of the character sequence `foo` in a character list. -/
def hasFooChars : List Char → Bool
  | 'f' :: 'o' :: 'o' :: _ => true
  | _ :: rest => hasFooChars rest
  | [] => false

/-- A concrete matcher for the regex `foo` (no metacharacters):
`re.search('foo', s)` succeeds exactly when `foo` occurs in `s`. -/
def fooRegex (s : String) : Bool := hasFooChars s.data

/-- The condition string `"SYM foo"`. -/
def fooCondition : FilterCond := ⟨.SYM, fooRegex⟩

/-- A 3-frame resolved chain (innermost first) in which only the middle
frame's display name matches `foo`. -/
def c2Chain : List ((String × String) × String) :=
  [(("alpha", "m1"), "0x1"), (("foo", "m2"), "0x2"), (("beta", "m3"), "0x3")]

/-- Well-shapedness of a classifier answer for an `n`-frame chain: a list
of exactly `n` booleans. -/
def goodShape (v : PyVal) (n : Nat) : Prop :=
  match v with
  | .notList => False
  | .list l => l.length = n ∧ PyElem.notBool ∉ l

/-- The two fully-available map-file entries of the C5 scenario. -/
def c5Lines : List MapLine := [.ok ⟨0x1000, 0x10, "foo"⟩, .ok ⟨0x2000, 0x20, "bar"⟩]

/-- A pipeline state with one output connection and nothing written yet. -/
def c10State : PipelineState := ⟨⟨1, 0, []⟩, initDict, [[]]⟩

/-- A sample event with a 2-frame resolved chain. -/
def c10Event : SampleEvent := ⟨"task-clock", 1, 2, 3, 4, [(("a", "m"), "0x1"), (("b", "m"), "0x2")]⟩

/-! ## Helper lemmas for the dictionary theorems -/

theorem find?_key_of_nodup :
    ∀ (l : List ((String × String) × String)) (p : String × String) (c : String),
      (l.map (fun e => e.1)).Nodup → (p, c) ∈ l →
      l.find? (fun e => e.1 = p) = some (p, c)
  | [], _, _, _, hm => absurd hm (List.not_mem_nil _)
  | e :: rest, p, c, hn, hm => by
    simp only [List.map_cons, List.nodup_cons] at hn
    by_cases hk : e.1 = p
    · have he : e = (p, c) := by
        rcases List.mem_cons.mp hm with hm | hm
        · exact hm.symm
        · exact absurd (hk ▸ List.mem_map_of_mem (fun x => x.1) hm) hn.1
      rw [List.find?_cons_of_pos _ (by simp [hk])]
      rw [he]
    · have hm' : (p, c) ∈ rest := by
        rcases List.mem_cons.mp hm with hm | hm
        · exact absurd (congrArg (fun x => x.1) hm.symm) hk
        · exact hm
      rw [List.find?_cons_of_neg _ (by simp [hk])]
      exact find?_key_of_nodup rest p c hn.2 hm'

theorem find?_code_of_nodup :
    ∀ (l : List ((String × String) × String)) (p : String × String) (c : String),
      (l.map (fun e => e.2)).Nodup → (p, c) ∈ l →
      l.find? (fun e => e.2 = c) = some (p, c)
  | [], _, _, _, hm => absurd hm (List.not_mem_nil _)
  | e :: rest, p, c, hn, hm => by
    simp only [List.map_cons, List.nodup_cons] at hn
    by_cases hk : e.2 = c
    · have he : e = (p, c) := by
        rcases List.mem_cons.mp hm with hm | hm
        · exact hm.symm
        · exact absurd (hk ▸ List.mem_map_of_mem (fun x => x.2) hm) hn.1
      rw [List.find?_cons_of_pos _ (by simp [hk])]
      rw [he]
    · have hm' : (p, c) ∈ rest := by
        rcases List.mem_cons.mp hm with hm | hm
        · exact absurd (congrArg (fun x => x.2) hm.symm) hk
        · exact hm
      rw [List.find?_cons_of_neg _ (by simp [hk])]
      exact find?_code_of_nodup rest p c hn.2 hm'

theorem dict_codes_nodup {d : SymDict} (h : DictInv d) :
    (d.entries.map (fun e => e.2)).Nodup := by
  obtain ⟨k, _, hc, _⟩ := h
  rw [hc]
  exact (List.nodup_range k).map
    (fun a b hab => by_contra (fun hne => genOutput_injective hne hab))

/-! ## Claim theorems: code generator and symbol dictionary -/

/-- C3: the first 95 calls of the code generator return the single
characters 32..126 (space through tilde) in strictly increasing string
order, the 96th call returns a two-character string, no two calls ever
return the same string, and output lengths never decrease. -/
theorem c3_code_generator :
    (∀ n : Nat, n ≤ 94 → genOutput n = String.mk [Char.ofNat (32 + n)]) ∧
    (∀ m n : Nat, m < n → n ≤ 94 → genOutput m < genOutput n) ∧
    (genOutput 95).length = 2 ∧
    (∀ m n : Nat, m ≠ n → genOutput m ≠ genOutput n) ∧
    (∀ m n : Nat, m ≤ n → (genOutput m).length ≤ (genOutput n).length) := by
  refine ⟨?_, ?_, ?_, ?_, ?_⟩
  · intro n hn
    rw [genOutput, stateAt_of_le_94 n hn]
    rfl
  · intro m n hmn hn
    exact genOutput_lt_of_le_94 hmn hn
  · decide
  · intro m n h
    exact genOutput_injective h
  · intro m n h
    exact genOutput_length_mono h

/-- Witness for C3 at concrete inputs. -/
theorem c3_code_generator_witness :
    genOutput 3 = String.mk [Char.ofNat (32 + 3)] ∧ genOutput 0 < genOutput 1 ∧
    genOutput 2 ≠ genOutput 7 ∧ (genOutput 4).length ≤ (genOutput 100).length :=
  ⟨c3_code_generator.1 3 (by decide),
   c3_code_generator.2.1 0 1 (by decide) (by decide),
   c3_code_generator.2.2.2.1 2 7 (by decide),
   c3_code_generator.2.2.2.2 4 100 (by decide)⟩

/-- C4: a `symbol_dict` access is idempotent (an identical pair yields the
identical code and leaves the dictionary unchanged), and on every reachable
dictionary state the shutdown reverse mapping sends each assigned code back
to exactly the pair it was assigned for (and the forward mapping agrees). -/
theorem c4_symbol_dict :
    (∀ (d : SymDict) (p : String × String),
      code_for (code_for d p).2 p = ((code_for d p).1, (code_for d p).2)) ∧
    (∀ d : SymDict, DictInv d → ∀ p c, (p, c) ∈ d.entries →
      revLookup d.entries c = some p ∧ lookupPair d.entries p = some c) := by
  constructor
  · intro d p
    unfold code_for
    cases hl : lookupPair d.entries p with
    | some c => simp [hl]
    | none =>
      have hfind : d.entries.find? (fun e => e.1 = p) = none := by
        unfold lookupPair at hl
        cases hf : d.entries.find? (fun e => e.1 = p) with
        | none => rfl
        | some e => rw [hf] at hl; simp at hl
      have : lookupPair (d.entries ++ [(p, (next_code d.gen).1)]) p =
          some (next_code d.gen).1 := by
        unfold lookupPair
        rw [List.find?_append, hfind]
        simp
      simp [this]
  · intro d hinv p c hm
    have hcodes := dict_codes_nodup hinv
    obtain ⟨k, hg, hc, hkeys⟩ := hinv
    constructor
    · unfold revLookup
      rw [find?_code_of_nodup d.entries.reverse p c
        (by rw [List.map_reverse]; exact List.nodup_reverse.mpr hcodes)
        (List.mem_reverse.mpr hm)]
      rfl
    · unfold lookupPair
      rw [find?_key_of_nodup d.entries p c hkeys hm]
      rfl

/-- Witness for C4: a concrete two-entry dictionary built by two fresh
lookups, checked for idempotence and exact invertibility. -/
theorem c4_symbol_dict_witness :
    (code_for (code_for initDict ("a", "b")).2 ("a", "b") =
      ((code_for initDict ("a", "b")).1, (code_for initDict ("a", "b")).2)) ∧
    revLookup (code_for (code_for initDict ("a", "b")).2 ("c", "d")).2.entries " " =
      some ("a", "b") ∧
    lookupPair (code_for (code_for initDict ("a", "b")).2 ("c", "d")).2.entries ("a", "b") =
      some " " := by
  have hinv : DictInv (code_for (code_for initDict ("a", "b")).2 ("c", "d")).2 :=
    ⟨2, by decide, by decide, by decide⟩
  have h2 := c4_symbol_dict.2 (code_for (code_for initDict ("a", "b")).2 ("c", "d")).2
    hinv ("a", "b") " " (by decide)
  exact ⟨c4_symbol_dict.1 initDict ("a", "b"), h2.1, h2.2⟩

/-! ## Claim theorems: stream router -/

theorem find?_addTid {table : List (Nat × List (Nat × Nat))} {pid : Nat} {pe : Nat × List (Nat × Nat)}
    (tid idx : Nat) (h : table.find? (fun e => e.1 = pid) = some pe) :
    (addTid table pid tid idx).find? (fun e => e.1 = pid) =
      some (pe.1, pe.2 ++ [(tid, idx)]) := by
  induction table with
  | nil => simp at h
  | cons hd rest ih =>
    by_cases hk : hd.1 = pid
    · rw [List.find?_cons_of_pos _ (by simp [hk])] at h
      have hpe : hd = pe := by injection h
      unfold addTid
      simp only [List.map_cons, if_pos hk]
      rw [List.find?_cons_of_pos _ (by simp [hk])]
      rw [hpe]
    · rw [List.find?_cons_of_neg _ (by simp [hk])] at h
      unfold addTid at ih ⊢
      simp only [List.map_cons, if_neg hk]
      rw [List.find?_cons_of_neg _ (by simp [hk])]
      exact ih h

/-- C1 counterexample: with 2 output connections, thread id 5 first seen
under pid 1 is assigned connection 0, but a later sample for the same
thread id 5 arriving under pid 2 is routed to connection 1, not to the
originally assigned connection. -/
theorem c1_counterexample :
    (event_stream_lookup (event_stream_lookup ⟨2, 0, []⟩ 1 5).2 2 5).1 ≠
      (event_stream_lookup ⟨2, 0, []⟩ 1 5).1 := by decide

/-- C1 (amended): the stream assignment is per (process id, thread id)
pair: a first sight of the pair hands out the current round-robin pointer
and advances it once; any later access with the same pair returns the
originally assigned connection and leaves the router unchanged. -/
theorem c1_stream_assignment :
    (∀ (s : RouterState) (pid tid : Nat),
      event_stream_lookup (event_stream_lookup s pid tid).2 pid tid =
        ((event_stream_lookup s pid tid).1, (event_stream_lookup s pid tid).2)) ∧
    (∀ (s : RouterState) (pid tid : Nat), seenPair s pid tid = false →
      (event_stream_lookup s pid tid).1 = s.next_index ∧
      (event_stream_lookup s pid tid).2.next_index = (s.next_index + 1) % s.nStreams) ∧
    (∀ (s : RouterState) (pid tid : Nat), seenPair s pid tid = true →
      (event_stream_lookup s pid tid).2 = s) := by
  refine ⟨?_, ?_, ?_⟩
  · intro s pid tid
    cases hp : s.table.find? (fun e => e.1 = pid) with
    | none =>
      have h2 : (s.table ++ [(pid, [(tid, s.next_index)])]).find? (fun e => e.1 = pid) =
          some (pid, [(tid, s.next_index)]) := by
        rw [List.find?_append, hp]
        simp
      have h3 : ([(tid, s.next_index)] : List (Nat × Nat)).find? (fun e => e.1 = tid) =
          some (tid, s.next_index) := by simp
      simp only [event_stream_lookup, get_next_event_stream, hp, h2, h3]
    | some pe =>
      cases ht : pe.2.find? (fun e => e.1 = tid) with
      | some te => simp only [event_stream_lookup, hp, ht]
      | none =>
        have h2 := find?_addTid tid s.next_index hp
        have h3 : (pe.2 ++ [(tid, s.next_index)]).find? (fun e => e.1 = tid) =
            some (tid, s.next_index) := by
          rw [List.find?_append, ht]
          simp
        simp only [event_stream_lookup, get_next_event_stream, hp, ht, h2, h3]
  · intro s pid tid hseen
    cases hp : s.table.find? (fun e => e.1 = pid) with
    | none =>
      simp only [event_stream_lookup, get_next_event_stream, hp]
      exact ⟨trivial, trivial⟩
    | some pe =>
      cases ht : pe.2.find? (fun e => e.1 = tid) with
      | some te => simp [seenPair, hp, ht] at hseen
      | none =>
        simp only [event_stream_lookup, get_next_event_stream, hp, ht]
        exact ⟨trivial, trivial⟩
  · intro s pid tid hseen
    cases hp : s.table.find? (fun e => e.1 = pid) with
    | none => simp [seenPair, hp] at hseen
    | some pe =>
      cases ht : pe.2.find? (fun e => e.1 = tid) with
      | some te => simp only [event_stream_lookup, hp, ht]
      | none => simp [seenPair, hp, ht] at hseen

/-- Witness for C1 (amended) at concrete inputs. -/
theorem c1_stream_assignment_witness :
    (event_stream_lookup (event_stream_lookup ⟨2, 0, []⟩ 3 7).2 3 7 =
      ((event_stream_lookup ⟨2, 0, []⟩ 3 7).1, (event_stream_lookup ⟨2, 0, []⟩ 3 7).2)) ∧
    ((event_stream_lookup ⟨2, 0, []⟩ 3 7).1 = 0 ∧
      (event_stream_lookup ⟨2, 0, []⟩ 3 7).2.next_index = (0 + 1) % 2) ∧
    (event_stream_lookup ⟨2, 1, [(3, [(7, 0)])]⟩ 3 7).2 = ⟨2, 1, [(3, [(7, 0)])]⟩ :=
  ⟨c1_stream_assignment.1 ⟨2, 0, []⟩ 3 7,
   c1_stream_assignment.2.1 ⟨2, 0, []⟩ 3 7 (by decide),
   c1_stream_assignment.2.2 ⟨2, 1, [(3, [(7, 0)])]⟩ 3 7 (by decide)⟩

/-! ## Claim theorems: callchain filter -/

theorem filter_dropWhile_keep (keepf : String × String → Bool) :
    ∀ l : List ((String × String) × String),
      (l.dropWhile (fun g => !keepf g.1)).filter (fun f => keepf f.1) =
        l.filter (fun f => keepf f.1)
  | [] => rfl
  | f :: rest => by
    by_cases hk : keepf f.1
    · rw [List.dropWhile_cons, if_neg (by simp [hk])]
    · rw [List.dropWhile_cons, if_pos (by simp [hk]), List.filter_cons,
        if_neg (by simp [hk])]
      exact filter_dropWhile_keep keepf rest

theorem specFilter_false_eq_filter (keepf : String × String → Bool) :
    ∀ chain, specFilter false keepf chain = chain.filter (fun f => keepf f.1)
  | [] => by simp [specFilter]
  | f :: rest => by
    by_cases hk : keepf f.1
    · rw [specFilter, if_pos hk, List.filter_cons, if_pos (by simp [hk])]
      rw [specFilter_false_eq_filter keepf rest]
    · rw [specFilter, if_neg hk]
      simp only [if_neg (by simp : ¬(false = true)), List.nil_append]
      rw [specFilter_false_eq_filter keepf (rest.dropWhile (fun g => !keepf g.1)),
        filter_dropWhile_keep, List.filter_cons, if_neg (by simp [hk])]
termination_by chain => chain.length
decreasing_by
  · simp
  · simp only [List.length_cons]
    exact Nat.lt_succ_of_le (List.dropWhile_suffix _).length_le

theorem markFold_eq_specFilter (mark : Bool) (keepf : String × String → Bool) :
    ∀ chain, markFold mark keepf false chain = specFilter mark keepf chain ∧
      markFold mark keepf true chain =
        specFilter mark keepf (chain.dropWhile (fun g => !keepf g.1))
  | [] => by simp [markFold, specFilter]
  | (s, o) :: rest => by
    have ih := markFold_eq_specFilter mark keepf rest
    by_cases hk : keepf s
    · constructor
      · rw [markFold, if_pos hk, specFilter, if_pos hk, ih.1]
      · rw [markFold, if_pos hk, List.dropWhile_cons, if_neg (by simp [hk]),
          specFilter, if_pos hk, ih.1]
    · constructor
      · cases mark with
        | true =>
          rw [markFold, if_neg hk]
          simp only [Bool.not_false, Bool.and_true, if_pos (rfl : (true : Bool) = true)]
          rw [specFilter, if_neg hk, ih.2]
          simp
        | false =>
          rw [markFold, if_neg hk]
          simp only [Bool.not_false, Bool.false_and, if_neg (by simp : ¬(false = true))]
          rw [specFilter, if_neg hk, ih.1]
          simp only [if_neg (by simp : ¬(false = true)), List.nil_append]
          rw [specFilter_false_eq_filter, specFilter_false_eq_filter,
            filter_dropWhile_keep]
      · rw [markFold, if_neg hk]
        simp only [Bool.not_true, Bool.and_false, if_neg (by simp : ¬(false = true))]
        rw [List.dropWhile_cons, if_pos (by simp [hk]), ih.2]

/-- C2: in the allow strategy, the concrete `[["SYM foo"]]`, mark-cuts
scenario on a 3-frame chain with only the middle frame matching yields
exactly `[cut, matched, cut]`; in general the fold equals the
specification filter (kept frames pass through unchanged, each maximal run
of rejected frames becomes one `(cut)` marker when marking), rejected
frames vanish entirely when marking is off, and the emitted chain is the
reverse of the fold result. -/
theorem c2_callchain_filter :
    (filteredChain (.allowF [[fooCondition]] true) .notList c2Chain =
      .ok [cutFrame, (("foo", "m2"), "0x2"), cutFrame]) ∧
    (∀ (mark : Bool) (keepf : String × String → Bool) chain,
      markFold mark keepf false chain = specFilter mark keepf chain) ∧
    (∀ (keepf : String × String → Bool) chain,
      specFilter false keepf chain = chain.filter (fun f => keepf f.1)) ∧
    (∀ (conds : List (List FilterCond)) (mark : Bool) (pyv : PyVal) chain,
      filteredChain (.allowF conds mark) pyv chain =
        .ok ((specFilter mark (fun s => satisfy_conditions s conds) chain).reverse)) := by
  refine ⟨?_, ?_, ?_, ?_⟩
  · rfl
  · intro mark keepf chain
    exact (markFold_eq_specFilter mark keepf chain).1
  · intro keepf chain
    exact specFilter_false_eq_filter keepf chain
  · intro conds mark pyv chain
    simp only [filteredChain, filterStage,
      (markFold_eq_specFilter mark (fun s => satisfy_conditions s conds) chain).1]

/-! ## Claim theorems: custom (python) classifier -/

theorem pyFold_isOk_iff (mark : Bool) :
    ∀ (chain : List ((String × String) × String)) (l : List PyElem) (lastCut : Bool),
      l.length = chain.length →
      ((pyFold mark lastCut l chain).isOk = true ↔ PyElem.notBool ∉ l)
  | [], l, lastCut, hlen => by
    have : l = [] := List.eq_nil_of_length_eq_zero (by simpa using hlen)
    subst this
    simp [pyFold, Except.isOk, Except.toBool]
  | (s, o) :: rest, l, lastCut, hlen => by
    cases l with
    | nil => simp at hlen
    | cons a as =>
      have hlen' : as.length = rest.length := by simpa using hlen
      cases a with
      | notBool => simp [pyFold, Except.isOk, Except.toBool]
      | bool b =>
        have ih := fun lc => pyFold_isOk_iff mark rest as lc hlen'
        by_cases hb : b = true
        · subst hb
          rw [pyFold]
          simp only [if_pos rfl]
          cases hr : pyFold mark false as rest with
          | ok xs => simp [Except.isOk, Except.toBool, ← ih false, hr]
          | error e => simp [Except.isOk, Except.toBool, ← ih false, hr]
        · have hb' : b = false := by simp at hb; exact hb
          subst hb'
          rw [pyFold]
          simp only [if_neg (by simp : ¬(false = true))]
          by_cases hmc : (mark && !lastCut) = true
          · rw [if_pos hmc]
            cases hr : pyFold mark true as rest with
            | ok xs => simp [Except.isOk, Except.toBool, ← ih true, hr]
            | error e => simp [Except.isOk, Except.toBool, ← ih true, hr]
          · rw [if_neg hmc]
            simp [← ih lastCut]

theorem pyFold_map_bool (mark : Bool) :
    ∀ (chain : List ((String × String) × String)) (bs : List Bool) (lastCut : Bool),
      pyFold mark lastCut (bs.map PyElem.bool) chain =
        .ok (boolFold mark lastCut bs chain)
  | [], bs, lastCut => by cases bs <;> simp [pyFold, boolFold]
  | (s, o) :: rest, [], lastCut => by simp [pyFold, boolFold]
  | (s, o) :: rest, b :: bs, lastCut => by
    rw [List.map_cons, pyFold, boolFold]
    by_cases hb : b = true
    · rw [if_pos hb, if_pos hb, pyFold_map_bool mark rest bs false]
    · rw [if_neg hb, if_neg hb]
      by_cases hmc : (mark && !lastCut) = true
      · rw [if_pos hmc, if_pos hmc, pyFold_map_bool mark rest bs true]
      · rw [if_neg hmc, if_neg hmc, pyFold_map_bool mark rest bs lastCut]

/-- C7: the external classifier is consulted exactly once per callchain
(the invocation counter advances by one); the python filter stage fails
exactly when the answer is not a list, has the wrong length, or contains a
non-boolean element; and on a well-shaped boolean answer the i-th boolean
decides acceptance of the i-th input frame. -/
theorem c7_python_classifier :
    (∀ (classify : Nat → PyVal) (count : Nat) (mark : Bool) chain,
      (pythonFilter classify count mark chain).2 = count + 1) ∧
    (∀ (classify : Nat → PyVal) (count : Nat) (mark : Bool) chain,
      ((pythonFilter classify count mark chain).1.isOk = true ↔
        goodShape (classify count) chain.length)) ∧
    (∀ (classify : Nat → PyVal) (count : Nat) (mark : Bool) (bs : List Bool) chain,
      classify count = .list (bs.map PyElem.bool) → bs.length = chain.length →
      (pythonFilter classify count mark chain).1 = .ok (boolFold mark false bs chain)) := by
  refine ⟨fun _ _ _ _ => rfl, ?_, ?_⟩
  · intro classify count mark chain
    cases hv : classify count with
    | notList =>
      simp [pythonFilter, filterStage, hv, checkAccepted, goodShape, Except.isOk,
        Except.toBool]
    | list l =>
      by_cases hlen : l.length = chain.length
      · simp only [pythonFilter, filterStage, hv, checkAccepted, if_pos hlen, goodShape]
        rw [pyFold_isOk_iff mark chain l false hlen]
        simp [hlen]
      · simp only [pythonFilter, filterStage, hv, checkAccepted, if_neg hlen, goodShape]
        simp [Except.isOk, Except.toBool, hlen]
  · intro classify count mark bs chain hv hlen
    simp only [pythonFilter, filterStage, hv, checkAccepted]
    rw [if_pos (show (List.map PyElem.bool bs).length = chain.length by
      simpa using hlen)]
    exact pyFold_map_bool mark chain bs false

/-- Witness for C7 at concrete inputs. -/
theorem c7_python_classifier_witness :
    (pythonFilter (fun _ => .list [.bool true, .bool false]) 5 true
      [(("a", "m"), "0x1"), (("b", "m"), "0x2")]).2 = 5 + 1 ∧
    ((pythonFilter (fun _ => .list [.bool true, .bool false]) 5 true
      [(("a", "m"), "0x1"), (("b", "m"), "0x2")]).1.isOk = true ↔
      goodShape (.list [.bool true, .bool false]) 2) ∧
    (pythonFilter (fun _ => .list [.bool true, .bool false]) 5 true
      [(("a", "m"), "0x1"), (("b", "m"), "0x2")]).1 =
      .ok (boolFold true false [true, false]
        [(("a", "m"), "0x1"), (("b", "m"), "0x2")]) :=
  ⟨c7_python_classifier.1 (fun _ => .list [.bool true, .bool false]) 5 true
      [(("a", "m"), "0x1"), (("b", "m"), "0x2")],
   c7_python_classifier.2.1 (fun _ => .list [.bool true, .bool false]) 5 true
      [(("a", "m"), "0x1"), (("b", "m"), "0x2")],
   c7_python_classifier.2.2 (fun _ => .list [.bool true, .bool false]) 5 true
      [true, false] [(("a", "m"), "0x1"), (("b", "m"), "0x2")] rfl rfl⟩

/-! ## Claim theorems: symbol-map cache -/

/-- C5: on the fully available two-entry map file, an address inside the
first range resolves to its name after reading exactly one line (the
matching entry becomes a one-entry batch); an address in the gap between
the ranges resolves to nothing while both buffered entries are sorted and
appended as one batch; a query with no readable data returns nothing and
caches nothing.  In general the read loop stops at the first freshly read
entry containing the address, returns nothing when the readable data runs
out, and whatever was buffered is sorted and appended as one new batch. -/
theorem c5_symbol_map_cache :
    (find_in_map [] "perf-7.map" "7" 0x1005 true c5Lines =
      (some "foo", [("7", ⟨"perf-7.map", true, 1, [[⟨0x1000, 0x10, "foo"⟩]]⟩)])) ∧
    (find_in_map [] "perf-7.map" "7" 0x1020 true c5Lines =
      (none, [("7", ⟨"perf-7.map", true, 2,
        [[⟨0x1000, 0x10, "foo"⟩, ⟨0x2000, 0x20, "bar"⟩]]⟩)])) ∧
    (find_in_map [] "perf-7.map" "7" 0x1005 true [] =
      (none, [("7", ⟨"perf-7.map", true, 0, []⟩)])) ∧
    (∀ (ip lineNo : Nat) (toAdd : List MapEntry) (e : MapEntry) (rest : List MapLine),
      e.start ≤ ip → ip < e.start + e.len →
      readLoop ip lineNo toAdd (.ok e :: rest) = (some e.name, toAdd ++ [e], lineNo + 1)) ∧
    (∀ (ip lineNo : Nat) (toAdd : List MapEntry),
      readLoop ip lineNo toAdd [] = (none, toAdd, lineNo)) ∧
    (∀ (c : MapCacheEntry) (ip : Nat) (readable : List MapLine),
      searchGroups ip c.groups = none →
      (readLoop ip c.lineNo [] readable).2.1 ≠ [] →
      (runMapQuery c ip readable).2.groups =
        c.groups ++ [sortEntries (readLoop ip c.lineNo [] readable).2.1]) := by
  refine ⟨by decide, by decide, by decide, ?_, ?_, ?_⟩
  · intro ip lineNo toAdd e rest h1 h2
    rw [readLoop, if_pos (by simp [h1]; omega)]
  · intro ip lineNo toAdd
    rfl
  · intro c ip readable hs hne
    simp only [runMapQuery, hs]
    rw [if_pos (by
      cases hr : (readLoop ip c.lineNo [] readable).2.1 with
      | nil => exact absurd hr hne
      | cons x xs => simp)]

/-- Witness for C5 at concrete inputs. -/
theorem c5_symbol_map_cache_witness :
    readLoop 0x1005 0 [] (.ok ⟨0x1000, 0x10, "foo"⟩ :: [.ok ⟨0x2000, 0x20, "bar"⟩]) =
      (some "foo", [] ++ [⟨0x1000, 0x10, "foo"⟩], 0 + 1) ∧
    readLoop 0x1005 3 [⟨0x1000, 0x10, "foo"⟩] [] = (none, [⟨0x1000, 0x10, "foo"⟩], 3) ∧
    (runMapQuery ⟨"perf-7.map", true, 0, []⟩ 0x1020 c5Lines).2.groups =
      [] ++ [sortEntries (readLoop 0x1020 0 [] c5Lines).2.1] :=
  ⟨c5_symbol_map_cache.2.2.2.1 0x1005 0 [] ⟨0x1000, 0x10, "foo"⟩
      [.ok ⟨0x2000, 0x20, "bar"⟩] (by decide) (by decide),
   c5_symbol_map_cache.2.2.2.2.1 0x1005 3 [⟨0x1000, 0x10, "foo"⟩],
   c5_symbol_map_cache.2.2.2.2.2 ⟨"perf-7.map", true, 0, []⟩ 0x1020 c5Lines
      (by decide) (by decide)⟩

/-- C6: a map file absent at the first query for an owner id is recorded
as permanently unresolved (path kept, handle `None`); every later query
for that owner id returns nothing and does not retry opening the file even
if it now exists; and the owner's map path appears in the
`missing_symbol_maps` report assembled at shutdown. -/
theorem c6_missing_map :
    ∀ (pm : PerfMaps) (path mid : String) (ip ip2 : Nat) (fe2 : Bool)
      (readable readable2 : List MapLine),
      pm.find? (fun e => e.1 = mid) = none →
      find_in_map pm path mid ip false readable =
        (none, pm ++ [(mid, ⟨path, false, 0, []⟩)]) ∧
      find_in_map (pm ++ [(mid, ⟨path, false, 0, []⟩)]) path mid ip2 fe2 readable2 =
        (none, pm ++ [(mid, ⟨path, false, 0, []⟩)]) ∧
      path ∈ missing_symbol_maps (pm ++ [(mid, ⟨path, false, 0, []⟩)]) := by
  intro pm path mid ip ip2 fe2 readable readable2 hnone
  have hfind : (pm ++ [(mid, (⟨path, false, 0, []⟩ : MapCacheEntry))]).find?
      (fun e => e.1 = mid) = some (mid, ⟨path, false, 0, []⟩) := by
    rw [List.find?_append, hnone]
    simp
  refine ⟨?_, ?_, ?_⟩
  · simp only [find_in_map, hnone]
    rw [if_neg (by simp)]
  · simp only [find_in_map, hfind]
    rw [if_neg (by simp)]
  · unfold missing_symbol_maps
    rw [List.filter_append, List.map_append]
    apply List.mem_append_right
    simp

/-- Witness for C6 at concrete inputs. -/
theorem c6_missing_map_witness :
    find_in_map [] "perf-9.map" "9" 0x10 false [] =
      (none, [] ++ [("9", ⟨"perf-9.map", false, 0, []⟩)]) ∧
    find_in_map ([] ++ [("9", ⟨"perf-9.map", false, 0, []⟩)]) "perf-9.map" "9"
      0x20 true c5Lines = (none, [] ++ [("9", ⟨"perf-9.map", false, 0, []⟩)]) ∧
    "perf-9.map" ∈ missing_symbol_maps ([] ++ [("9", ⟨"perf-9.map", false, 0, []⟩)]) :=
  c6_missing_map [] "perf-9.map" "9" 0x10 0x20 true [] c5Lines rfl

/-! ## Claim theorems: frame resolver -/

theorem bracket_ne_empty (t : String) : ("[" ++ t : String) ≠ "" := by
  intro h
  have hd : ('[' :: t.data : List Char) = [] := congrArg String.data h
  exact List.noConfusion hd

/-- C8 counterexample: a frame whose module path is not a `perf-<id>.map`
file but which also carries a static symbol name resolves to that symbol
name, not to the bracketed module path the claim promises for every
non-map frame. -/
theorem c8_counterexample :
    (process_callchain_elem id (fun _ _ _ => none)
      ⟨0x400000, some "f", some "/usr/lib/x.so", 0x10⟩).sym.1 ≠ "[/usr/lib/x.so]" := by
  decide

/-- C8 (amended): for a frame whose module path does not match the
`perf-<id>.map` convention, the reported offset is always the
module-relative offset; the display name is the bracketed module path when
the frame carries no static symbol, and the raw static symbol name when it
does. -/
theorem c8_non_map_module (demangle : String → String)
    (mapLookup : String → String → Nat → Option String) (elem : RawElem)
    (dso : String) (hd : elem.dso = some dso)
    (hm : isPerfMapName (baseName dso) = none) :
    (process_callchain_elem demangle mapLookup elem).off = toHex elem.dso_off ∧
    (elem.sym = none →
      (process_callchain_elem demangle mapLookup elem).sym.1 = "[" ++ dso ++ "]") ∧
    (∀ n, elem.sym = some n →
      (process_callchain_elem demangle mapLookup elem).sym.1 = n) := by
  cases hs : elem.sym with
  | none =>
    simp only [process_callchain_elem, hd, hm, hs]
    refine ⟨trivial, fun _ => trivial, fun n hn => ?_⟩
    simp at hn
  | some n =>
    simp only [process_callchain_elem, hd, hm, hs]
    refine ⟨trivial, fun h => by simp at h, fun n' hn => ?_⟩
    injection hn

/-- Witness for C8 (amended) at concrete inputs. -/
theorem c8_non_map_module_witness :
    (process_callchain_elem id (fun _ _ _ => none)
      ⟨0x400000, none, some "/usr/lib/x.so", 0x10⟩).off = toHex 0x10 ∧
    (process_callchain_elem id (fun _ _ _ => none)
      ⟨0x400000, none, some "/usr/lib/x.so", 0x10⟩).sym.1 = "[" ++ "/usr/lib/x.so" ++ "]" := by
  have h := c8_non_map_module id (fun _ _ _ => none)
    ⟨0x400000, none, some "/usr/lib/x.so", 0x10⟩ "/usr/lib/x.so" rfl (by decide)
  exact ⟨h.1, h.2.1 rfl⟩

/-- C9 counterexample: a frame carrying a present-but-empty static symbol
name resolves to the empty display name, violating the claimed invariant. -/
theorem c9_counterexample :
    (process_callchain_elem id (fun _ _ _ => none) ⟨0, some "", none, 0⟩).sym.1 = "" := by
  decide

/-- C9 (amended): provided every present static symbol name is non-empty
and the demangler and the symbol-map lookup return non-empty names, the
resolved display name is never empty, and a frame with neither symbol nor
module path falls back to the bracketed hexadecimal instruction pointer. -/
theorem c9_display_nonempty (demangle : String → String)
    (mapLookup : String → String → Nat → Option String) (elem : RawElem)
    (hdem : ∀ s, s ≠ "" → demangle s ≠ "")
    (hmap : ∀ d m i r, mapLookup d m i = some r → r ≠ "")
    (hsym : ∀ n, elem.sym = some n → n ≠ "") :
    (process_callchain_elem demangle mapLookup elem).sym.1 ≠ "" ∧
    (elem.sym = none → elem.dso = none →
      (process_callchain_elem demangle mapLookup elem).sym.1 =
        "[" ++ toHex elem.ip ++ "]") := by
  constructor
  · cases hd : elem.dso with
    | none =>
      cases hs : elem.sym with
      | none =>
        simp only [process_callchain_elem, hd, hs]
        exact bracket_ne_empty _
      | some n =>
        simp only [process_callchain_elem, hd, hs]
        exact hsym n hs
    | some dso =>
      cases hpm : isPerfMapName (baseName dso) with
      | none =>
        cases hs : elem.sym with
        | none =>
          simp only [process_callchain_elem, hd, hpm, hs]
          exact bracket_ne_empty _
        | some n =>
          simp only [process_callchain_elem, hd, hpm, hs]
          exact hsym n hs
      | some mapId =>
        cases hs : elem.sym with
        | some n =>
          simp only [process_callchain_elem, hd, hpm, hs]
          exact hdem n (hsym n hs)
        | none =>
          cases hml : mapLookup dso mapId elem.ip with
          | some r =>
            simp only [process_callchain_elem, hd, hpm, hs, hml]
            exact hmap dso mapId elem.ip r hml
          | none =>
            simp only [process_callchain_elem, hd, hpm, hs, hml]
            exact bracket_ne_empty _
  · intro hs hd
    simp only [process_callchain_elem, hd, hs]

/-- Witness for C9 (amended) at a concrete input. -/
theorem c9_display_nonempty_witness :
    (process_callchain_elem id (fun _ _ _ => none) ⟨0x2a, none, none, 0⟩).sym.1 ≠ "" ∧
    (process_callchain_elem id (fun _ _ _ => none) ⟨0x2a, none, none, 0⟩).sym.1 =
      "[" ++ toHex 0x2a ++ "]" := by
  have h := c9_display_nonempty id (fun _ _ _ => none) ⟨0x2a, none, none, 0⟩
    (fun s hs => hs) (fun d m i r hr => Option.noConfusion hr)
    (fun n hn => Option.noConfusion hn)
  exact ⟨h.1, h.2 rfl rfl⟩

/-! ## Claim theorems: per-sample emission -/

theorem event_stream_lookup_lt {s : RouterState} {pid tid : Nat}
    (h1 : s.next_index < s.nStreams)
    (h2 : ∀ pe ∈ s.table, ∀ te ∈ pe.2, te.2 < s.nStreams) :
    (event_stream_lookup s pid tid).1 < s.nStreams := by
  cases hp : s.table.find? (fun e => e.1 = pid) with
  | none => simpa [event_stream_lookup, hp, get_next_event_stream] using h1
  | some pe =>
    cases ht : pe.2.find? (fun e => e.1 = tid) with
    | none => simpa [event_stream_lookup, hp, ht, get_next_event_stream] using h1
    | some te =>
      have hpe := List.mem_of_find?_eq_some hp
      have hte := List.mem_of_find?_eq_some ht
      simpa [event_stream_lookup, hp, ht] using h2 pe hpe te hte

theorem sum_lengths_set_append {α : Type} :
    ∀ (l : List (List α)) (idx : Nat) (x : α), idx < l.length →
      ((l.set idx ((l.getD idx []) ++ [x])).map List.length).sum =
        (l.map List.length).sum + 1
  | [], idx, x, h => by simp at h
  | a :: rest, 0, x, _ => by
    simp only [List.getD_cons_zero, List.set_cons_zero, List.map_cons, List.sum_cons,
      List.length_append, List.length_cons, List.length_nil]
    omega
  | a :: rest, idx + 1, x, h => by
    have ih := sum_lengths_set_append rest idx x (by simpa using h)
    simp only [List.getD_cons_succ, List.set_cons_succ, List.map_cons, List.sum_cons]
    omega

/-- C10: whenever `process_event` completes (in particular for every
allow/deny configuration), exactly one record is appended to the assigned
output connection — the total record count across connections grows by
exactly one; and in the concrete reject-everything configuration with
mark-cuts disabled the record is still emitted, carrying an empty
callchain. -/
theorem c10_one_record_per_sample :
    (∀ (cfg : Option FilterConfig) (pyv : PyVal) (st : PipelineState)
      (ev : SampleEvent) (st' : PipelineState), RouterWF st →
      process_event cfg pyv st ev = .ok st' →
      totalRecords st' = totalRecords st + 1) ∧
    (process_event (some (.allowF [] false)) .notList c10State c10Event =
      .ok ⟨⟨1, 0, [(1, [(2, 0)])]⟩, initDict, [[⟨"task-clock", 1, 2, 3, 4, []⟩]]⟩) := by
  constructor
  · intro cfg pyv st ev st' hwf heq
    obtain ⟨hlen, hnext, htable⟩ := hwf
    cases henc : encodeStage cfg pyv st.symdict ev.chain with
    | error e => simp [process_event, henc] at heq
    | ok cc =>
      simp only [process_event, henc] at heq
      have hidx : (event_stream_lookup st.router ev.pid ev.tid).1 < st.outputs.length := by
        rw [← hlen]
        exact event_stream_lookup_lt hnext htable
      injection heq with h
      subst h
      simp only [totalRecords]
      exact sum_lengths_set_append st.outputs _ _ hidx
  · rfl

/-- Witness for C10 at the concrete one-connection state. -/
theorem c10_one_record_per_sample_witness :
    totalRecords ⟨⟨1, 0, [(1, [(2, 0)])]⟩, initDict, [[⟨"task-clock", 1, 2, 3, 4, []⟩]]⟩ =
      totalRecords c10State + 1 :=
  c10_one_record_per_sample.1 (some (.allowF [] false)) .notList c10State c10Event
    ⟨⟨1, 0, [(1, [(2, 0)])]⟩, initDict, [[⟨"task-clock", 1, 2, 3, 4, []⟩]]⟩
    ⟨rfl, by decide, by intro pe hpe; simp [c10State] at hpe⟩
    rfl

end Adaptyst
